import Mathlib

/-!
# Verification of the fgbuster separation orchestration engine

Shallow embedding of `fgbuster/separation_recipes.py` and proofs about the
claims of its specification.  Arrays of floats are modelled over `ℚ` where the
code only compares, sums and divides, and over `ℝ` where square roots and
matrix inverses occur.  The healpy sentinel `hp.UNSEEN = -1.6375e30` is the
exact rational `-16375 * 10^26`.
-/

namespace Fgb

/-- The healpy sentinel `hp.UNSEEN = -1.6375e30`, exactly representable. -/
def UNSEEN : ℚ := -1637500000000000000000000000000

/-- The sentinel as a real number, for the parts of the engine modelled over `ℝ`. -/
noncomputable def UNSEENR : ℝ := -1637500000000000000000000000000

/-! ## Mask Unifier (`_intersect_mask`, lines 840-847)

A frequency-by-pixel array, either plain (invalidity = sentinel value) or in
masked-array representation (invalidity = explicit flag, which is what
`maps.mask` returns when `hp.pixelfunc.is_ma(maps)` holds). -/

/-- A 2-d array `(n_freq, n_pix)` as fed to `_intersect_mask`:
values plus the optional masked-array flags. -/
structure MArr2 (nf np : ℕ) where
  val : Fin nf → Fin np → ℚ
  flags : Option (Fin nf → Fin np → Bool)

/-- A 3-d array `(n_freq, n_stokes, n_pix)`. -/
structure MArr3 (nf ns np : ℕ) where
  val : Fin nf → Fin ns → Fin np → ℚ
  flags : Option (Fin nf → Fin ns → Fin np → Bool)

/-- Elementwise invalidity: the masked-array flag when the array is a
`MaskedArray`, otherwise comparison with the sentinel (`maps == hp.UNSEEN`). -/
def isInvalid2 (a : MArr2 nf np) (f : Fin nf) (p : Fin np) : Bool :=
  match a.flags with
  | some fl => fl f p
  | none => a.val f p == UNSEEN

/-- Elementwise invalidity for a 3-d array. -/
def isInvalid3 (a : MArr3 nf ns np) (f : Fin nf) (s : Fin ns) (p : Fin np) : Bool :=
  match a.flags with
  | some fl => fl f s p
  | none => a.val f s p == UNSEEN

/-- `_intersect_mask` on a 2-d array: `np.any(mask, axis=0)`, i.e. the OR of
the elementwise mask along the frequency axis.  `true` = bad pixel. -/
def intersect_mask (a : MArr2 nf np) (p : Fin np) : Bool :=
  (List.finRange nf).any (fun f => isInvalid2 a f p)

/-- `_intersect_mask` on a 3-d array: OR along both leading axes. -/
def intersect_mask3 (a : MArr3 nf ns np) (p : Fin np) : Bool :=
  (List.finRange nf).any (fun f =>
    (List.finRange ns).any (fun s => isInvalid3 a f s p))

/-- The bad-pixel mask of `weighted_comp_sep` (line 103):
`_intersect_mask(data) | _intersect_mask(cov)` (the code then negates it to
get the good-pixel mask). -/
def weighted_mask_bad (d c : MArr2 nf np) (p : Fin np) : Bool :=
  intersect_mask d p || intersect_mask c p

theorem intersect_mask_iff (a : MArr2 nf np) (p : Fin np) :
    intersect_mask a p = true ↔ ∃ f, isInvalid2 a f p = true := by
  simp [intersect_mask, List.any_eq_true, List.mem_finRange]

theorem intersect_mask3_iff (a : MArr3 nf ns np) (p : Fin np) :
    intersect_mask3 a p = true ↔ ∃ f s, isInvalid3 a f s p = true := by
  simp [intersect_mask3, List.any_eq_true, List.mem_finRange]

/-- C1.  For data alone or data together with covariance, the derived mask
marks a pixel bad iff some element along the leading axes at that pixel is
invalid (sentinel-valued for a plain array, flagged for a masked array), in
any of the supplied arrays; the triggering frequency is irrelevant.  The 3-d
conjunct covers the extra (stokes) axis. -/
theorem mask_unifier_pixel_invalid_iff (nf ns np : ℕ)
    (d c : MArr2 nf np) (a : MArr3 nf ns np) (p : Fin np) :
    (weighted_mask_bad d c p = true ↔
      (∃ f, (d.flags.elim (d.val f p = UNSEEN) (fun fl => fl f p = true))) ∨
      (∃ f, (c.flags.elim (c.val f p = UNSEEN) (fun fl => fl f p = true)))) ∧
    (intersect_mask3 a p = true ↔
      ∃ f s, (a.flags.elim (a.val f s p = UNSEEN) (fun fl => fl f s p = true))) := by
  constructor
  · rw [weighted_mask_bad, Bool.or_eq_true, intersect_mask_iff, intersect_mask_iff]
    apply or_congr
    · apply exists_congr
      intro f
      cases h : d.flags <;> simp [isInvalid2, h]
    · apply exists_congr
      intro f
      cases h : c.flags <;> simp [isInvalid2, h]
  · rw [intersect_mask3_iff]
    apply exists_congr; intro f; apply exists_congr; intro s
    cases h : a.flags <;> simp [isInvalid3, h, Option.elim]

/-! ## Sky fraction in `harmonic_ilc` (lines 537-543) -/

/-- Number of pixels flagged bad by `_intersect_mask`: `mask.sum()`. -/
def count_bad (a : MArr2 nf np) : ℕ :=
  ((List.finRange np).filter (fun p => intersect_mask a p)).length

/-- Number of pixels not flagged by `_intersect_mask`. -/
def count_good (a : MArr2 nf np) : ℕ :=
  ((List.finRange np).filter (fun p => ! intersect_mask a p)).length

/-- `np.mean` of a list of rationals. -/
def npMean (l : List ℚ) : ℚ := l.sum / l.length

/-- The `weights is not None` branch: `np.mean(weights**2)**2 / np.mean(weights**4)`. -/
def fsky_weights (w : List ℚ) : ℚ :=
  (npMean (w.map (· ^ 2))) ^ 2 / npMean (w.map (· ^ 4))

/-- The sky fraction computed by `harmonic_ilc`:
`mask = _intersect_mask(data); fsky = float(mask.sum()) / mask.size` when no
weights are given, the MASTER factor otherwise. -/
def harmonic_fsky (a : MArr2 nf np) (w : Option (List ℚ)) : ℚ :=
  match w with
  | some w => fsky_weights w
  | none => (count_bad a : ℚ) / np

/-- Modelled from the spec: with no apodization weights, the sky fraction is
"the fraction of unmasked pixels", i.e. valid pixels over total pixels. -/
def fsky_spec (a : MArr2 nf np) : ℚ := (count_good a : ℚ) / np

theorem count_bad_add_count_good (a : MArr2 nf np) :
    count_bad a + count_good a = np := by
  have h := @List.length_eq_length_filter_add _ (List.finRange np)
    (fun p => intersect_mask a p)
  simpa [count_bad, count_good] using h.symm

/-- `harmonic_fsky` data for the failing input of C2: one frequency, four
pixels, pixel 0 carrying the sentinel. -/
def c2data : MArr2 1 4 := ⟨fun _ p => ![UNSEEN, 1, 2, 3] p, none⟩

/-- C2.  The no-weights sky fraction of `harmonic_ilc` is the fraction of
*masked* pixels — the complement of the fraction of unmasked pixels the claim
(and the docstring) state.  On a map with 1 of 4 pixels masked the code yields
1/4 while the claim demands 3/4. -/
theorem harmonic_fsky_is_masked_fraction :
    (∀ nf np : ℕ, ∀ a : MArr2 nf (np + 1),
      harmonic_fsky a none = 1 - fsky_spec a) ∧
    harmonic_fsky c2data none = 1 / 4 ∧ fsky_spec c2data = 3 / 4 := by
  refine ⟨fun nf np a => ?_, ?_, ?_⟩
  case refine_2 =>
    have hb : count_bad c2data = 1 := by decide
    simp only [harmonic_fsky, hb]
    norm_num
  case refine_3 =>
    have hg : count_good c2data = 3 := by decide
    simp only [fsky_spec, hg]
    norm_num
  have h := count_bad_add_count_good a
  have hq : (count_bad a : ℚ) + (count_good a : ℚ) = (np : ℚ) + 1 := by
    have := congrArg (Nat.cast : ℕ → ℚ) h
    push_cast at this
    linarith
  rw [harmonic_fsky, fsky_spec]
  have hnp : ((np : ℚ) + 1) ≠ 0 := by positivity
  push_cast
  field_simp
  linarith

/-! ## `weighted_comp_sep.craft_params` (lines 140-147)

`craft_params` pads the solver output with sentinel rows up to the patch pixel
count and replaces `NaN` with the sentinel.  Float values are modelled as
rationals plus an explicit `NaN`. -/

/-- A float that is either a (rational) number or `NaN`. -/
inductive FloatVal
  | num (q : ℚ)
  | nan
deriving DecidableEq

/-- `result[np.isnan(result)] = hp.UNSEEN` on one element. -/
def denan : FloatVal → FloatVal
  | .nan => .num UNSEEN
  | v => v

/-- `craft_params` (lines 140-147): concatenate `par_array` with
`hp.nside2npix(nside) - par_array.shape[0]` rows of sentinel (each row of the
trailing shape `k`), then replace every `NaN` by the sentinel.  The final
transpose only reorders axes and is omitted. -/
def craft_params (npix k : ℕ) (par : List (List FloatVal)) : List (List FloatVal) :=
  ((par ++ List.replicate (npix - par.length) (List.replicate k (FloatVal.num UNSEEN))).map
    (List.map denan))

theorem denan_ne_nan (v : FloatVal) : denan v ≠ FloatVal.nan := by
  cases v <;> simp [denan]

theorem denan_eq_ite (v : FloatVal) :
    denan v = if v = FloatVal.nan then FloatVal.num UNSEEN else v := by
  cases v <;> simp [denan]

/-- C10.  With `nside > 0`, the crafted parameter/covariance arrays have
exactly the patch pixel count as leading length, contain no `NaN`, carry the
sentinel in every padded position past the solver output, and replace the
solver's `NaN`s by the sentinel while keeping other values. -/
theorem craft_params_no_nan_full_length (npix k : ℕ) (par : List (List FloatVal))
    (h : par.length ≤ npix) :
    (craft_params npix k par).length = npix ∧
    (∀ row ∈ craft_params npix k par, FloatVal.nan ∉ row) ∧
    (∀ i : ℕ, par.length ≤ i → i < npix →
      (craft_params npix k par)[i]? = some (List.replicate k (FloatVal.num UNSEEN))) ∧
    (∀ i : ℕ, ∀ hi : i < par.length,
      (craft_params npix k par)[i]? =
        some ((par.get ⟨i, hi⟩).map
          (fun v => if v = FloatVal.nan then FloatVal.num UNSEEN else v))) := by
  refine ⟨?_, ?_, ?_, ?_⟩
  · simp only [craft_params, List.length_map, List.length_append, List.length_replicate]
    omega
  · intro row hrow hnan
    simp only [craft_params, List.mem_map] at hrow
    obtain ⟨r, _, hr⟩ := hrow
    subst hr
    obtain ⟨x, _, hx⟩ := List.mem_map.1 hnan
    exact denan_ne_nan x hx
  · intro i h1 h2
    have hlt : i - par.length < npix - par.length := by omega
    simp only [craft_params, List.getElem?_map,
      List.getElem?_append_right h1, List.getElem?_replicate, if_pos hlt,
      Option.map_some]
    simp [List.map_replicate, denan]
  · intro i hi
    have := @List.getElem?_append_left _ par
      (List.replicate (npix - par.length) (List.replicate k (FloatVal.num UNSEEN))) i hi
    simp only [craft_params, List.getElem?_map, this, List.getElem?_eq_getElem hi,
      Option.map_some]
    refine congrArg some ?_
    refine List.map_congr_left (fun v _ => denan_eq_ite v) |>.trans ?_
    simp [List.get_eq_getElem]

/-- Witness for C10 at a concrete input: one solver row `[1, NaN]` crafted to
patch pixel count 2 with trailing shape 2. -/
theorem craft_params_no_nan_full_length_witness :
    (craft_params 2 2 [[FloatVal.num 1, FloatVal.nan]]).length = 2 ∧
    (craft_params 2 2 [[FloatVal.num 1, FloatVal.nan]])[1]? =
      some (List.replicate 2 (FloatVal.num UNSEEN)) ∧
    (craft_params 2 2 [[FloatVal.num 1, FloatVal.nan]])[0]? =
      some [FloatVal.num 1, FloatVal.num UNSEEN] := by
  have h := craft_params_no_nan_full_length 2 2 [[FloatVal.num 1, FloatVal.nan]]
    (by decide)
  refine ⟨h.1, h.2.2.1 1 (by decide) (by decide), ?_⟩
  have h4 := h.2.2.2 0 (by decide)
  simpa using h4

/-! ## `_LowerCaseAttrDict` and `_force_keys_as_attributes` (lines 865-886)

A Python string is modelled as its list of characters, `str.lower` as
`Char.toLower` mapped over it (the keys at stake are ASCII), and a dict as an
association list with Python update semantics (one binding per key,
assignment overwrites in place, new keys append). -/

/-- A Python string. -/
abbrev PyStr := List Char

/-- Python `str.lower()`. -/
def pyLower (s : PyStr) : PyStr := s.map Char.toLower

/-- A Python dict with string keys. -/
abbrev PyDict (V : Type) := List (PyStr × V)

/-- Python `d[k]` (`None` ≈ `KeyError`). -/
def dictGet (d : PyDict V) (k : PyStr) : Option V :=
  (d.find? (fun e => e.1 == k)).map (·.2)

/-- Python `d[k] = v`: overwrite in place if the key exists, else append. -/
def dictSet (d : PyDict V) (k : PyStr) (v : V) : PyDict V :=
  if d.any (fun e => e.1 == k) then d.map (fun e => if e.1 == k then (k, v) else e)
  else d ++ [(k, v)]

/-- Python `del d[k]`. -/
def dictDel (d : PyDict V) (k : PyStr) : PyDict V :=
  d.filter (fun e => ! (e.1 == k))

/-- One iteration of the `_LowerCaseAttrDict.__init__` loop: for a key whose
lower-case form differs, `self[str_key.lower()] = item; del self[key]`. -/
def lowerStep (acc : PyDict V) (e : PyStr × V) : PyDict V :=
  if pyLower e.1 ≠ e.1 then dictDel (dictSet acc (pyLower e.1) e.2) e.1 else acc

/-- `_LowerCaseAttrDict.__init__`: fold the renaming loop over the entries of
the dict (entries appended during the loop have lower-case keys already and
are no-ops when the iterator reaches them). -/
def lowerCaseInit (d : PyDict V) : PyDict V :=
  d.foldl lowerStep d

/-- `_LowerCaseAttrDict.__getattr__`: look the lower-cased name up,
`None` ≈ `AttributeError`. -/
def dictGetattr (d : PyDict V) (k : PyStr) : Option V :=
  dictGet d (pyLower k)

theorem toNat_ofNat_valid (n : Nat) (h : n < 55296) : (Char.ofNat n).toNat = n := by
  have hv : n.isValidChar := Or.inl h
  simp [Char.ofNat, hv, Char.ofNatAux, Char.toNat, UInt32.toNat, BitVec.toNat_ofNatLt]

theorem char_toLower_idem (c : Char) : c.toLower.toLower = c.toLower := by
  unfold Char.toLower
  by_cases h : c.toNat ≥ 65 ∧ c.toNat ≤ 90
  · rw [if_pos h]
    have h1 : (Char.ofNat (c.toNat + 32)).toNat = c.toNat + 32 :=
      toNat_ofNat_valid _ (by omega)
    rw [if_neg]
    rw [h1]
    omega
  · rw [if_neg h, if_neg h]

theorem pyLower_idem (s : PyStr) : pyLower (pyLower s) = pyLower s := by
  simp only [pyLower, List.map_map]
  exact List.map_congr_left (fun c _ => char_toLower_idem c)

/-- A key is present in a dict iff some entry carries it. -/
theorem dictGet_isSome_iff (d : PyDict V) (k : PyStr) :
    (dictGet d k).isSome ↔ ∃ e ∈ d, e.1 = k := by
  rw [dictGet, Option.isSome_map', List.find?_isSome]
  simp only [beq_iff_eq]

theorem dictSet_isSome_iff (d : PyDict V) (k k' : PyStr) (v : V) :
    (dictGet (dictSet d k v) k').isSome ↔ k' = k ∨ (dictGet d k').isSome := by
  rw [dictGet_isSome_iff, dictGet_isSome_iff, dictSet]
  by_cases hmem : d.any (fun e => e.1 == k)
  · rw [if_pos hmem]
    simp only [List.any_eq_true, beq_iff_eq] at hmem
    obtain ⟨w, hw, hwk⟩ := hmem
    constructor
    · rintro ⟨e, he, hek⟩
      obtain ⟨e', he', hfe⟩ := List.mem_map.1 he
      by_cases h : e'.1 = k
      · simp only [h, beq_self_eq_true, if_pos] at hfe
        rw [← hfe] at hek
        exact Or.inl hek.symm
      · rw [if_neg (by simpa using h)] at hfe
        rw [← hfe] at hek
        exact Or.inr ⟨e', he', hek⟩
    · intro hcase
      rcases hcase with hke | ⟨e, he, hek⟩
      · refine ⟨(k, v), List.mem_map.2 ⟨w, hw, ?_⟩, hke.symm⟩
        simp [hwk]
      · by_cases h : e.1 = k
        · refine ⟨(k, v), List.mem_map.2 ⟨e, he, ?_⟩, by rw [← hek, h]⟩
          simp [h]
        · refine ⟨e, List.mem_map.2 ⟨e, he, ?_⟩, hek⟩
          simp [h]
  · rw [if_neg hmem]
    constructor
    · rintro ⟨e, he, hek⟩
      rcases List.mem_append.1 he with he' | he'
      · exact Or.inr ⟨e, he', hek⟩
      · rw [List.mem_singleton] at he'
        rw [he'] at hek
        exact Or.inl hek.symm
    · intro hcase
      rcases hcase with hke | ⟨e, he, hek⟩
      · exact ⟨(k, v), List.mem_append.2 (Or.inr (List.mem_singleton.2 rfl)), hke.symm⟩
      · exact ⟨e, List.mem_append.2 (Or.inl he), hek⟩

theorem dictDel_isSome_iff (d : PyDict V) (k k' : PyStr) :
    (dictGet (dictDel d k) k').isSome ↔ k' ≠ k ∧ (dictGet d k').isSome := by
  rw [dictGet_isSome_iff, dictGet_isSome_iff, dictDel]
  constructor
  · rintro ⟨e, he, hek⟩
    rw [List.mem_filter] at he
    refine ⟨?_, e, he.1, hek⟩
    intro hkk
    have hek' : e.1 = k := by rw [hek, hkk]
    have := he.2
    rw [hek'] at this
    simp at this
  · rintro ⟨hne, e, he, hek⟩
    refine ⟨e, List.mem_filter.2 ⟨he, ?_⟩, hek⟩
    simp [hek, hne]

/-- Invariant of the `__init__` loop: for a lower-case-fixed query key, the
fold makes it present iff it was already present or some processed entry
renames onto it. -/
theorem foldl_lowerStep_isSome (es : List (PyStr × V)) (acc : PyDict V) (l : PyStr)
    (hl : pyLower l = l) :
    (dictGet (es.foldl lowerStep acc) l).isSome ↔
      (dictGet acc l).isSome ∨ ∃ e ∈ es, pyLower e.1 = l ∧ pyLower e.1 ≠ e.1 := by
  induction es generalizing acc with
  | nil =>
    rw [List.foldl_nil]
    constructor
    · exact Or.inl
    · rintro (hacc | ⟨e, he, _⟩)
      · exact hacc
      · exact absurd he (List.not_mem_nil e)
  | cons e es ih =>
    rw [List.foldl_cons, ih]
    by_cases h : pyLower e.1 ≠ e.1
    · have hstep : lowerStep acc e = dictDel (dictSet acc (pyLower e.1) e.2) e.1 := by
        rw [lowerStep, if_pos h]
      have hne : l ≠ e.1 := by
        intro hle
        exact h (by rw [← hle, hl])
      rw [hstep, dictDel_isSome_iff, dictSet_isSome_iff]
      constructor
      · rintro (⟨_, hll | hacc⟩ | hex)
        · exact Or.inr ⟨e, List.mem_cons_self e es, hll.symm, h⟩
        · exact Or.inl hacc
        · obtain ⟨e', he', h1, h2⟩ := hex
          exact Or.inr ⟨e', List.mem_cons_of_mem _ he', h1, h2⟩
      · rintro (hacc | ⟨e', he', h1, h2⟩)
        · exact Or.inl ⟨hne, Or.inr hacc⟩
        · rcases List.mem_cons.1 he' with rfl | he''
          · exact Or.inl ⟨hne, Or.inl h1.symm⟩
          · exact Or.inr ⟨e', he'', h1, h2⟩
    · have hstep : lowerStep acc e = acc := by
        rw [lowerStep, if_neg h]
      rw [hstep]
      rw [not_not] at h
      constructor
      · rintro (hacc | ⟨e', he', h1, h2⟩)
        · exact Or.inl hacc
        · exact Or.inr ⟨e', List.mem_cons_of_mem _ he', h1, h2⟩
      · rintro (hacc | ⟨e', he', h1, h2⟩)
        · exact Or.inl hacc
        · rcases List.mem_cons.1 he' with rfl | he''
          · exact absurd h h2
          · exact Or.inr ⟨e', he'', h1, h2⟩

/-- Counterexample to C9 as stated: for `{"Frequencies": 42}`, after
normalization the mapping lookup with the original casing fails (`KeyError`)
although the attribute-style access with the same casing succeeds — mapping
lookup is *not* case-insensitive at access time. -/
theorem getitem_not_case_insensitive :
    dictGet (lowerCaseInit [("Frequencies".toList, (42 : ℕ))]) "Frequencies".toList
        = none ∧
    dictGetattr (lowerCaseInit [("Frequencies".toList, (42 : ℕ))]) "Frequencies".toList
        = some 42 := by
  constructor <;> decide

/-- C9 (amended).  After normalization, attribute-style access is
case-insensitive (it is the mapping lookup of the lower-cased name), and it
yields a value iff some key of the original mapping lower-cases to the
queried name — otherwise an `AttributeError` is raised.  Mapping lookup,
however, only serves the lower-cased key. -/
theorem lower_attr_dict_access (V : Type) (d : PyDict V) (k k₂ : PyStr) :
    (dictGetattr (lowerCaseInit d) k = dictGet (lowerCaseInit d) (pyLower k)) ∧
    (pyLower k₂ = pyLower k →
      dictGetattr (lowerCaseInit d) k₂ = dictGetattr (lowerCaseInit d) k) ∧
    ((dictGetattr (lowerCaseInit d) k).isSome ↔ ∃ e ∈ d, pyLower e.1 = pyLower k) := by
  refine ⟨rfl, fun h => by rw [dictGetattr, dictGetattr, h], ?_⟩
  rw [dictGetattr, lowerCaseInit,
    foldl_lowerStep_isSome d d (pyLower k) (pyLower_idem k)]
  constructor
  · rintro (hd | ⟨e, he, h1, _⟩)
    · obtain ⟨e, he, hek⟩ := (dictGet_isSome_iff d (pyLower k)).1 hd
      exact ⟨e, he, by rw [hek, pyLower_idem]⟩
    · exact ⟨e, he, h1⟩
  · rintro ⟨e, he, hek⟩
    by_cases h : pyLower e.1 = e.1
    · exact Or.inl ((dictGet_isSome_iff d (pyLower k)).2 ⟨e, he, by rw [← hek, h]⟩)
    · exact Or.inr ⟨e, he, hek, h⟩

/-- Witness for C9's amended theorem at a concrete input. -/
theorem lower_attr_dict_access_witness :
    pyLower "FREQUENCIES".toList = pyLower "Frequencies".toList ∧
    ((dictGetattr (lowerCaseInit [("Frequencies".toList, (42 : ℕ))])
        "FREQUENCIES".toList).isSome ↔
      ∃ e ∈ [("Frequencies".toList, (42 : ℕ))],
        pyLower e.1 = pyLower "FREQUENCIES".toList) := by
  exact ⟨by decide,
    (lower_attr_dict_access ℕ [("Frequencies".toList, 42)]
      "FREQUENCIES".toList "Frequencies".toList).2.2⟩

/-! ## `_get_prewhiten_factors` (lines 742-780) and its two callers

The instrument is the adapter-normalised record; a missing `Sens_I`/`Sens_P`
is `none` (attribute access raises `AttributeError`, which
`_get_prewhiten_factors` catches and turns into `None`).  The healpy
resolution `hp.nside2resol` is an external collaborator, passed in as a
function. -/

/-- The instrument descriptor, after `_force_keys_as_attributes`. -/
structure Instrument (nf : ℕ) where
  frequencies : Fin nf → ℝ
  sens_i : Option (Fin nf → ℝ)
  sens_p : Option (Fin nf → ℝ)
  beams : Option (Fin nf → ℝ)

/-- `_get_prewhiten_factors`: select the sensitivity by the stokes axis of the
data shape, return `none` (from the caught `AttributeError`) when the
instrument lacks it, raise `ValueError` for an unrecognised stokes length, and
otherwise scale by the pixel resolution (`nside2resol(nside)` for a map
resolution, `sqrt(12) * nside2resol(1)` for `nside == 0`). -/
noncomputable def get_prewhiten_factors (inst : Instrument nf) (shape : List ℕ)
    (nside : ℕ) (resol : ℕ → ℝ) : Except String (Option (List (Fin nf → ℝ))) :=
  let scale : (Fin nf → ℝ) → (Fin nf → ℝ) := fun s f =>
    if nside ≠ 0 then resol nside / s f else Real.sqrt 12 * resol 1 / s f
  if shape.length < 3 ∨ shape[1]? = some 1 then
    .ok (inst.sens_i.map (fun s => [scale s]))
  else if shape[1]? = some 2 then
    .ok (inst.sens_p.map (fun s => [scale s]))
  else if shape[1]? = some 3 then
    .ok (match inst.sens_i, inst.sens_p with
      | some si, some sp => some [scale si, scale sp, scale sp]
      | _, _ => none)
  else .error "ValueError"

/-- `basic_comp_sep` lines 241-244: `None` prewhitening factors leave the
(transposed) data untouched, otherwise each pixel row is scaled. -/
noncomputable def basic_prewhitened (factors : Option (Fin nf → ℝ))
    (dataT : List (Fin nf → ℝ)) : List (Fin nf → ℝ) :=
  match factors with
  | none => dataT
  | some f => dataT.map (fun row i => f i * row i)

/-- `multi_res_comp_sep` lines 362-363: `invN = np.diag(invN**2)` — applied
unconditionally, so `None` factors raise
`TypeError: unsupported operand type(s) for ** or pow()`. -/
noncomputable def multi_res_invN (factors : Option (Fin nf → ℝ)) :
    Except String (Matrix (Fin nf) (Fin nf) ℝ) :=
  match factors with
  | none => .error "TypeError: unsupported operand for pow on NoneType"
  | some f => .ok (Matrix.diagonal (fun i => f i ^ 2))

/-- C7.  For an instrument with no sensitivity fields,
`_get_prewhiten_factors` yields `None` for both the temperature-only and the
joint T+P shapes, and `basic_comp_sep` then proceeds with identity scaling —
but `multi_res_comp_sep` feeds the `None` into `np.diag(invN**2)` and raises a
`TypeError` instead of proceeding. -/
theorem prewhiten_absent_sensitivity (nf npix nside : ℕ) (freqs : Fin nf → ℝ)
    (beams : Option (Fin nf → ℝ)) (resol : ℕ → ℝ) (dataT : List (Fin nf → ℝ)) :
    get_prewhiten_factors ⟨freqs, none, none, beams⟩ [nf, npix] nside resol
        = .ok none ∧
    get_prewhiten_factors ⟨freqs, none, none, beams⟩ [nf, 3, npix] nside resol
        = .ok none ∧
    basic_prewhitened none dataT = dataT ∧
    @multi_res_invN nf none
        = .error "TypeError: unsupported operand for pow on NoneType" := by
  refine ⟨?_, ?_, rfl, rfl⟩
  · rw [get_prewhiten_factors, if_pos]
    · rfl
    · exact Or.inl (by norm_num)
  · have h3 : ([nf, 3, npix] : List ℕ)[1]? = some 3 := rfl
    have h2 : ¬ (([nf, 3, npix] : List ℕ)[1]? = some 2) := by simp
    have h1 : ¬ (([nf, 3, npix] : List ℕ).length < 3 ∨
        ([nf, 3, npix] : List ℕ)[1]? = some 1) := by simp
    rw [get_prewhiten_factors, if_neg h1, if_neg h2, if_pos h3]

/-! ## `harmonic_ilc` and the optional `lbins` (lines 532-535, 594-598, 626-630) -/

/-- `lbins.max()` — an `AttributeError` when `lbins` is `None`
(line 535 accesses it unconditionally). -/
def lbinsMax (lbins : Option (List ℕ)) : Except String ℕ :=
  match lbins with
  | none => .error "AttributeError: NoneType object has no attribute max"
  | some l => .ok (l.foldr max 0)

/-- `lmax = min(3 * nside - 1, lbins.max())` (lines 534-535). -/
def harmonic_lmax (nside : ℕ) (lbins : Option (List ℕ)) : Except String ℕ :=
  (lbinsMax lbins).map (fun m => min (3 * nside - 1) m)

/-- `np.digitize(x, bins)` for increasing `bins`: the number of edges `≤ x`. -/
def np_digitize (x : ℕ) (bins : List ℕ) : ℕ :=
  (bins.filter (fun b => b ≤ x)).length

/-- The per-coefficient bin id of `_harmonic_ilc_alm` (lines 596-597): the raw
multipole degree, remapped through the edges only when bins are supplied. -/
def ilc_bin_of_ell (lbins : Option (List ℕ)) (ell : ℕ) : ℕ :=
  match lbins with
  | none => ell
  | some bins => np_digitize ell bins

/-- C8.  `harmonic_ilc` with `lbins = None` (the default) does not complete:
line 535 evaluates `lbins.max()` and raises `AttributeError`, although the
bin-id computation downstream would have handled `None` by grouping on the
raw multipole degree. -/
theorem harmonic_ilc_lbins_none_raises (nside ell : ℕ) (bins : List ℕ) :
    harmonic_lmax nside none
        = .error "AttributeError: NoneType object has no attribute max" ∧
    harmonic_lmax nside (some bins) = .ok (min (3 * nside - 1) (bins.foldr max 0)) ∧
    ilc_bin_of_ell none ell = ell := ⟨rfl, rfl, rfl⟩

/-! ## `harmonic_ilc` back-to-real step (lines 556-563)

`res = _harmonic_ilc_alm(...)` returns the ILC component coefficients in
`res.s`; the code then rebinds `res.s` to a fresh array and fills it with
`hp.alm2map(alms[c], nside)` where `alms` is still the *input frequency*
coefficient array — the component coefficients are discarded.  `alm2map` is an
external collaborator. -/

/-- The maps `harmonic_ilc` returns (lines 559-561): for each component index
`c`, the inverse transform of the *input* `alms[c]`.  The `ilcAlms` argument
stands for the component coefficients `res.s` computed by
`_harmonic_ilc_alm`; as in the code, it does not influence the result. -/
def harmonic_back_to_real {A M : Type} (nc nf : ℕ) (h : nc ≤ nf)
    (alm2map : A → M) (alms : Fin nf → A) (_ilcAlms : Fin nc → A) : Fin nc → M :=
  fun c => alm2map (alms (Fin.castLE h c))

/-- Modelled from the spec: "transform the resulting component coefficients
back to map space" — the inverse transform of the per-bin ILC output. -/
def harmonic_back_to_real_spec {A M : Type} (nc : ℕ)
    (alm2map : A → M) (ilcAlms : Fin nc → A) : Fin nc → M :=
  fun c => alm2map (ilcAlms c)

/-- C3.  The component maps returned by `harmonic_ilc` are the inverse
transforms of the *input frequency* coefficients, not of the ILC component
coefficients: the result is independent of the ILC output, and on a concrete
input whose ILC coefficients `![5, 7]` differ from the leading frequency
coefficients `![2, 3]` the code disagrees with the spec-modelled map. -/
theorem harmonic_maps_from_input_alms :
    (∀ (A M : Type) (a2m : A → M) (alms : Fin 2 → A) (x y : Fin 2 → A),
      harmonic_back_to_real 2 2 (le_refl 2) a2m alms x
        = harmonic_back_to_real 2 2 (le_refl 2) a2m alms y) ∧
    harmonic_back_to_real 2 2 (le_refl 2) id ![(2 : ℚ), 3] ![5, 7] = ![(2 : ℚ), 3] ∧
    harmonic_back_to_real_spec 2 id ![(5 : ℚ), 7] = ![(5 : ℚ), 7] ∧
    harmonic_back_to_real 2 2 (le_refl 2) id ![(2 : ℚ), 3] ![5, 7]
      ≠ harmonic_back_to_real_spec 2 id ![(5 : ℚ), 7] := by
  refine ⟨fun A M a2m alms x y => rfl, ?_, rfl, ?_⟩
  · funext c
    fin_cases c <;> rfl
  · intro h
    have h0 := congrFun h 0
    simp only [harmonic_back_to_real, harmonic_back_to_real_spec, id_eq] at h0
    norm_num [show (Fin.castLE (le_refl 2) 0 : Fin 2) = 0 from rfl] at h0

/-! ## ILC inversion by correlation (`ilc.ilc_patch`, lines 701-709)

`cov_regularizer = np.diag(cov)**0.5 * np.diag(cov)[:, np.newaxis]**0.5`,
`correlation = cov / cov_regularizer`,
`inv_freq_cov = np.linalg.inv(correlation) / cov_regularizer`. -/

/-- The outer product of the per-frequency standard deviations. -/
noncomputable def cov_regularizer (cov : Matrix (Fin n) (Fin n) ℝ) :
    Matrix (Fin n) (Fin n) ℝ :=
  fun i j => Real.sqrt (cov i i) * Real.sqrt (cov j j)

/-- The correlation matrix: elementwise quotient of the covariance by the
regularizer. -/
noncomputable def correlation (cov : Matrix (Fin n) (Fin n) ℝ) :
    Matrix (Fin n) (Fin n) ℝ :=
  fun i j => cov i j / cov_regularizer cov i j

/-- The inverse frequency covariance as computed by `ilc_patch`: invert the
correlation, then divide elementwise by the regularizer again. -/
noncomputable def inv_freq_cov (cov : Matrix (Fin n) (Fin n) ℝ) :
    Matrix (Fin n) (Fin n) ℝ :=
  fun i j => (correlation cov)⁻¹ i j / cov_regularizer cov i j

/-- Conjugating `cov⁻¹` with the diagonal of standard deviations gives an
explicit right inverse of the correlation matrix. -/
theorem correlation_mul_right_inverse (n : ℕ) (cov : Matrix (Fin n) (Fin n) ℝ)
    (hdet : IsUnit cov.det) (hdiag : ∀ i, 0 < cov i i) :
    correlation cov *
      (Matrix.diagonal (fun i => Real.sqrt (cov i i)) * cov⁻¹ *
        Matrix.diagonal (fun i => Real.sqrt (cov i i))) = 1 := by
  set d : Fin n → ℝ := fun i => Real.sqrt (cov i i) with hd
  have hdpos : ∀ i, 0 < d i := fun i => Real.sqrt_pos.2 (hdiag i)
  have hdne : ∀ i, d i ≠ 0 := fun i => ne_of_gt (hdpos i)
  set E : Matrix (Fin n) (Fin n) ℝ := Matrix.diagonal (fun i => (d i)⁻¹) with hE
  set D : Matrix (Fin n) (Fin n) ℝ := Matrix.diagonal d with hD
  have hED : E * D = (1 : Matrix (Fin n) (Fin n) ℝ) := by
    rw [hE, hD, Matrix.diagonal_mul_diagonal]
    have : (fun i => (d i)⁻¹ * d i) = fun _ => (1 : ℝ) :=
      funext fun i => inv_mul_cancel₀ (hdne i)
    rw [this, Matrix.diagonal_one]
  have hcorr : correlation cov = E * cov * E := by
    ext i j
    rw [hE]
    simp only [correlation, cov_regularizer, Matrix.mul_diagonal, Matrix.diagonal_mul]
    rw [div_eq_mul_inv, mul_inv]
    ring
  rw [hcorr]
  have hassoc : E * cov * E * (D * cov⁻¹ * D) = E * cov * (E * D) * cov⁻¹ * D := by
    simp only [Matrix.mul_assoc]
  rw [hassoc, hED, Matrix.mul_one, Matrix.mul_assoc E cov cov⁻¹,
    Matrix.mul_nonsing_inv cov hdet, Matrix.mul_one, hED]

/-- The correlation matrix of an invertible covariance with positive diagonal
is itself invertible (it has an explicit right inverse). -/
theorem correlation_isUnit_det (n : ℕ) (cov : Matrix (Fin n) (Fin n) ℝ)
    (hdet : IsUnit cov.det) (hdiag : ∀ i, 0 < cov i i) :
    IsUnit (correlation cov).det :=
  Matrix.isUnit_det_of_right_inverse (correlation_mul_right_inverse n cov hdet hdiag)

/-- C4.  For every invertible covariance with strictly positive diagonal, the
inversion-by-correlation of `ilc_patch` returns exactly the inverse of the
covariance matrix. -/
theorem inv_by_correlation_eq_inv (n : ℕ) (cov : Matrix (Fin n) (Fin n) ℝ)
    (hdet : IsUnit cov.det) (hdiag : ∀ i, 0 < cov i i) :
    inv_freq_cov cov = cov⁻¹ := by
  set d : Fin n → ℝ := fun i => Real.sqrt (cov i i) with hd
  have hdpos : ∀ i, 0 < d i := fun i => Real.sqrt_pos.2 (hdiag i)
  have hdne : ∀ i, d i ≠ 0 := fun i => ne_of_gt (hdpos i)
  have hinv : (correlation cov)⁻¹ = Matrix.diagonal d * cov⁻¹ * Matrix.diagonal d :=
    Matrix.inv_eq_right_inv (correlation_mul_right_inverse n cov hdet hdiag)
  funext i j
  rw [inv_freq_cov, hinv]
  simp only [Matrix.mul_diagonal, Matrix.diagonal_mul, cov_regularizer, ← hd]
  rw [div_eq_iff (mul_ne_zero (hdne i) (hdne j))]
  ring

/-- Witness for C4 at the 2×2 identity covariance. -/
theorem inv_by_correlation_eq_inv_witness :
    IsUnit (Matrix.det (1 : Matrix (Fin 2) (Fin 2) ℝ)) ∧
    (∀ i : Fin 2, 0 < (1 : Matrix (Fin 2) (Fin 2) ℝ) i i) ∧
    inv_freq_cov (1 : Matrix (Fin 2) (Fin 2) ℝ) = (1 : Matrix (Fin 2) (Fin 2) ℝ)⁻¹ := by
  have h1 : IsUnit (Matrix.det (1 : Matrix (Fin 2) (Fin 2) ℝ)) := by simp
  have h2 : ∀ i : Fin 2, 0 < (1 : Matrix (Fin 2) (Fin 2) ℝ) i i := by
    intro i
    simp [Matrix.one_apply]
  exact ⟨h1, h2, inv_by_correlation_eq_inv 2 1 h1 h2⟩

/-! ## The pixel-domain ILC engine (`ilc`, lines 639-739)

Data is a plain `(n_freq, n_pix)` stack of rationals (sentinel = `UNSEEN`);
the linear algebra from the correlation onwards is over `ℝ`.  The mixing
matrix `A = MixingMatrix(*components).eval(...)` and `np.linalg.inv` are
external collaborators: `A` is taken as an input matrix, and the inverse
errors out exactly on singular input. -/

/-- A raised exception: the message logged beforehand (empty for the
`AssertionError`, which is not caught and not logged) and the exception
itself. -/
structure IlcFailure where
  log : String
  exc : String
deriving DecidableEq

/-- The exact `logging.error` argument of lines 712-716: the literal is not an
f-string, so the braced placeholders are logged verbatim, for every patch. -/
def ilcLogMsg : String :=
  "Empirical covariance matrix cannot be reliably inverted.\nThe domain that failed is \x7bi_patch\x7d.\nCovariance matrix diagonal \x7bnp.diag(cov)\x7d\nCorrelation matrix\n\x7bcorrelation\x7d"

/-- `np.linalg.inv`: the inverse, or `LinAlgError` on singular input. -/
noncomputable def npLinalgInv (M : Matrix (Fin n) (Fin n) ℝ) :
    Except String (Matrix (Fin n) (Fin n) ℝ) :=
  haveI := Classical.propDecidable (IsUnit M.det)
  if IsUnit M.det then .ok M⁻¹ else .error "LinAlgError: Singular matrix"

/-- Modelled from the spec: the external `alg.W` — minimum-variance weights
`W = inv(Aᵀ N⁻¹ A) Aᵀ N⁻¹` mapping frequency data to component amplitudes. -/
noncomputable def algW (A : Matrix (Fin nf) (Fin nc) ℝ)
    (invN : Matrix (Fin nf) (Fin nf) ℝ) : Matrix (Fin nc) (Fin nf) ℝ :=
  (A.transpose * invN * A)⁻¹ * A.transpose * invN

/-- `mask = ~_intersect_mask(data)` for a plain array: every frequency of the
pixel differs from the sentinel. -/
def maskGood (data : Fin nf → Fin npix → ℚ) (p : Fin npix) : Bool :=
  decide (∀ f, data f p ≠ UNSEEN)

/-- `patch_ids_bak[~mask] = -1` (line 731). -/
def patch_ids_bak (data : Fin nf → Fin npix → ℚ) (pids : Fin npix → ℤ)
    (p : Fin npix) : ℤ :=
  if maskGood data p then pids p else -1

/-- `ids_i = np.where(patch_ids_bak == i)`: the (ascending) pixel indices of
patch `i` that survived the mask. -/
def npWhere (data : Fin nf → Fin npix → ℚ) (pids : Fin npix → ℤ) (i : ℤ) :
    List (Fin npix) :=
  (List.finRange npix).filter (fun p => patch_ids_bak data pids p == i)

/-- `n_id = patch_ids.max() + 1` (line 727). -/
def ilcNid (npix : ℕ) (pids : Fin npix → ℤ) : ℕ :=
  ((((List.finRange npix).map pids).max?.getD (-1)) + 1).toNat

/-- The values of `np.cov` of the patch rows: empirical covariance of the
frequency rows over the patch pixels, normalised by `len - 1`.  `np.cov` ends
with a `squeeze()`, so for a single frequency the program actually gets a 0-d
array; that sole observable effect of the squeeze is the `ndim` assertion
modelled in `ilc_patch`, and for `nf ≠ 1` the squeeze is the identity. -/
def npCovQ (data : Fin nf → Fin npix → ℚ) (idxs : List (Fin npix)) :
    Matrix (Fin nf) (Fin nf) ℚ :=
  fun a b =>
    ((idxs.map (fun p => (data a p - npMean (idxs.map (fun q => data a q)))
        * (data b p - npMean (idxs.map (fun q => data b q))))).sum)
      / ((idxs.length : ℚ) - 1)

/-- The mutable result arrays of `ilc`, pre-filled with the sentinel
(lines 695, 728-729). -/
structure IlcState (nf nc npix : ℕ) where
  freq_cov : ℕ → Matrix (Fin nf) (Fin nf) ℝ
  W : ℕ → Matrix (Fin nc) (Fin nf) ℝ
  s : Fin npix → Fin nc → ℝ

/-- The initial sentinel-filled state. -/
noncomputable def ilcInit (nf nc npix : ℕ) : IlcState nf nc npix :=
  ⟨fun _ _ _ => UNSEENR, fun _ _ _ => UNSEENR, fun _ _ => UNSEENR⟩

/-- One call of `ilc_patch(ids_i, i)` (lines 697-720): skip unless
`np.any(ids_i)` — which, `ids_i` being the *index tuple* from `np.where`, asks
whether any surviving pixel index is nonzero, not whether the patch is
nonempty — then covariance, the `assert cov.ndim == 2` of line 705 (`np.cov`
squeezes a single-frequency covariance to 0-d, so the assertion fails exactly
when `nf = 1`; an `AssertionError` is not caught, so nothing is logged),
inversion by correlation (with the logged `LinAlgError` propagated), weights
and projection. -/
noncomputable def ilc_patch (A : Matrix (Fin nf) (Fin nc) ℝ)
    (data : Fin nf → Fin npix → ℚ) (pids : Fin npix → ℤ) (i : ℕ)
    (st : IlcState nf nc npix) : Except IlcFailure (IlcState nf nc npix) :=
  let ids_i := npWhere data pids (i : ℤ)
  if ids_i.any (fun p => p.val != 0) then
    let cov : Matrix (Fin nf) (Fin nf) ℝ := fun a b => ((npCovQ data ids_i a b : ℚ) : ℝ)
    if nf = 1 then
      .error ⟨"", "AssertionError: cov.ndim == 2"⟩
    else
      (Except.mapError (fun e => IlcFailure.mk ilcLogMsg e)
          (npLinalgInv (correlation cov))).map
        (fun ic =>
          let icov : Matrix (Fin nf) (Fin nf) ℝ :=
            fun a b => ic a b / cov_regularizer cov a b
          let w := algW A icov
          { freq_cov := Function.update st.freq_cov i cov
            W := Function.update st.W i w
            s := fun p => if p ∈ ids_i then w.mulVec (fun f => ((data f p : ℚ) : ℝ))
                          else st.s p })
  else .ok st

/-- The `patch_ids is not None` loop of `ilc` (lines 727-734): fold
`ilc_patch` over the patch indices, aborting on the first raised error. -/
noncomputable def ilcRun (A : Matrix (Fin nf) (Fin nc) ℝ)
    (data : Fin nf → Fin npix → ℚ) (pids : Fin npix → ℤ) :
    Except IlcFailure (IlcState nf nc npix) :=
  (List.range (ilcNid npix pids)).foldlM
    (fun st i => ilc_patch A data pids i st) (ilcInit nf nc npix)

theorem ilc_patch_skip (A : Matrix (Fin nf) (Fin nc) ℝ)
    (data : Fin nf → Fin npix → ℚ) (pids : Fin npix → ℤ) (i : ℕ)
    (st : IlcState nf nc npix)
    (h : (npWhere data pids (i : ℤ)).any (fun p => p.val != 0) = false) :
    ilc_patch A data pids i st = .ok st := by
  rw [ilc_patch]
  simp only [h, Bool.false_eq_true, if_false]

theorem npLinalgInv_ok (M : Matrix (Fin n) (Fin n) ℝ) (h : IsUnit M.det) :
    npLinalgInv M = .ok M⁻¹ := by
  rw [npLinalgInv]
  exact if_pos h

theorem npLinalgInv_err (M : Matrix (Fin n) (Fin n) ℝ) (h : ¬ IsUnit M.det) :
    npLinalgInv M = .error "LinAlgError: Singular matrix" := by
  rw [npLinalgInv]
  exact if_neg h

/-! ### C6: a singular patch logs a fixed message and re-raises

Two frequencies with identical maps `[0, 2]` in a single patch: the empirical
covariance is the all-2 matrix, the correlation the all-1 matrix, which is
singular. -/

/-- Frequency data for the singular-covariance input: two identical rows. -/
def data6 : Fin 2 → Fin 2 → ℚ := ![![0, 2], ![0, 2]]

/-- A single patch containing both pixels. -/
def pids6 : Fin 2 → ℤ := fun _ => 0

/-- A one-component mixing matrix. -/
noncomputable def A6 : Matrix (Fin 2) (Fin 1) ℝ := fun _ _ => 1

theorem npCovQ_data6 : npCovQ data6 (npWhere data6 pids6 ((0 : ℕ) : ℤ))
    = fun _ _ => (2 : ℚ) := by
  have hids : npWhere data6 pids6 ((0 : ℕ) : ℤ) = [0, 1] := by decide
  rw [hids]
  funext a b
  fin_cases a <;> fin_cases b <;>
    · simp [npCovQ, npMean, data6]
      norm_num

theorem correlation_const_two (n : ℕ) :
    correlation (fun _ _ => (2 : ℝ) : Matrix (Fin n) (Fin n) ℝ)
      = fun _ _ => (1 : ℝ) := by
  funext a b
  rw [correlation, cov_regularizer]
  rw [Real.mul_self_sqrt (by norm_num : (0 : ℝ) ≤ 2)]
  norm_num

/-- C6.  On a patch whose correlation matrix is singular, the engine
propagates the `LinAlgError` out of the whole run (no weights, covariance or
amplitudes are produced for any patch, so no default is silently substituted)
— but the message it logs first is the literal placeholder text of the
non-f-string at lines 712-716, identical for every patch, instead of the
offending patch identity, covariance diagonal and correlation matrix. -/
theorem ilc_singular_raises_with_constant_log :
    ilcRun A6 data6 pids6
      = .error ⟨ilcLogMsg, "LinAlgError: Singular matrix"⟩ ∧
    ilcLogMsg = "Empirical covariance matrix cannot be reliably inverted.\nThe domain that failed is \x7bi_patch\x7d.\nCovariance matrix diagonal \x7bnp.diag(cov)\x7d\nCorrelation matrix\n\x7bcorrelation\x7d" := by
  refine ⟨?_, rfl⟩
  have hrange : List.range (ilcNid 2 pids6) = [0] := by decide
  have hany : (npWhere data6 pids6 ((0 : ℕ) : ℤ)).any (fun p => p.val != 0) = true := by
    decide
  have hcovR : (fun a b => ((npCovQ data6 (npWhere data6 pids6 ((0 : ℕ) : ℤ)) a b : ℚ) : ℝ))
      = (fun _ _ => (2 : ℝ) : Matrix (Fin 2) (Fin 2) ℝ) := by
    rw [npCovQ_data6]
    funext a b
    norm_num
  have hsing : ¬ IsUnit (correlation
      (fun a b => ((npCovQ data6 (npWhere data6 pids6 ((0 : ℕ) : ℤ)) a b : ℚ) : ℝ))).det := by
    rw [hcovR, correlation_const_two]
    rw [Matrix.det_fin_two]
    norm_num
  rw [ilcRun, hrange]
  simp only [List.foldlM_cons, List.foldlM_nil, ilc_patch, hany, if_true]
  rw [if_neg (show ¬ (2 = 1) by decide)]
  rw [npLinalgInv_err _ hsing]
  rfl

/-! ### C5: the skip test `np.any(ids_i)` looks at index values, not emptiness

Two frequencies, four valid pixels; explicit patches `[0, 1, 1, 1]`.  Patch 0
contains exactly the valid pixel 0, yet `np.any((array([0]),))` is `False`,
so the patch is skipped and its outputs stay at the sentinel.  Patch 1
(pixels 1, 2, 3) has the invertible 2×2 empirical covariance
`[[4, 10], [10, 28]]`, passes the `ndim` assertion (`nf = 2`), and is
computed, so the run completes. -/

/-- Frequency data for the C5 input: two frequencies, four valid pixels. -/
def data5 : Fin 2 → Fin 4 → ℚ := ![![9, 0, 2, 4], ![9, 0, 2, 10]]

/-- Patch identifiers `[0, 1, 1, 1]`. -/
def pids5 : Fin 4 → ℤ := ![0, 1, 1, 1]

/-- A one-component mixing matrix for two frequencies. -/
noncomputable def A5 : Matrix (Fin 2) (Fin 1) ℝ := fun _ _ => 1

theorem npCovQ_data5 : npCovQ data5 (npWhere data5 pids5 ((1 : ℕ) : ℤ))
    = fun a b => !![(4 : ℚ), 10; 10, 28] a b := by
  have hids : npWhere data5 pids5 ((1 : ℕ) : ℤ) = [1, 2, 3] := by decide
  rw [hids]
  funext a b
  fin_cases a <;> fin_cases b <;>
    · simp [npCovQ, npMean, data5]
      norm_num

/-- C5.  Pixel 0 is valid and assigned to patch 0, yet the engine leaves the
weights, the empirical covariance and the component amplitudes of patch 0 at
the sentinel: the skip test `if not np.any(ids_i)` fires on the index tuple
`(array([0]),)` — a patch is skipped not iff it has no valid pixels, but iff
all its valid pixels have index 0.  Patch 1 (pixels 1, 2 and 3) is computed,
so the run still succeeds. -/
theorem ilc_skips_patch_with_only_pixel_zero :
    maskGood data5 0 = true ∧ patch_ids_bak data5 pids5 0 = 0 ∧
    ∃ st, ilcRun A5 data5 pids5 = .ok st ∧
      st.W 0 = (fun _ _ => UNSEENR) ∧
      st.freq_cov 0 = (fun _ _ => UNSEENR) ∧
      st.s 0 = (fun _ => UNSEENR) := by
  refine ⟨by decide, by decide, ?_⟩
  have hrange : List.range (ilcNid 4 pids5) = [0, 1] := by decide
  have hany0 : ((npWhere data5 pids5 ((0 : ℕ) : ℤ)).any fun p => p.val != 0) = false := by
    decide
  have hany1 : ((npWhere data5 pids5 ((1 : ℕ) : ℤ)).any fun p => p.val != 0) = true := by
    decide
  have hcovR : (fun a b => ((npCovQ data5 (npWhere data5 pids5 ((1 : ℕ) : ℤ)) a b : ℚ) : ℝ))
      = (!![(4 : ℝ), 10; 10, 28] : Matrix (Fin 2) (Fin 2) ℝ) := by
    rw [npCovQ_data5]
    funext a b
    fin_cases a <;> fin_cases b <;> norm_num
  have hdetR : IsUnit (!![(4 : ℝ), 10; 10, 28] : Matrix (Fin 2) (Fin 2) ℝ).det := by
    rw [Matrix.det_fin_two_of]
    exact isUnit_iff_ne_zero.2 (by norm_num)
  have hdiagR : ∀ i : Fin 2, 0 < (!![(4 : ℝ), 10; 10, 28] : Matrix (Fin 2) (Fin 2) ℝ) i i := by
    intro i
    fin_cases i <;> norm_num
  have hunit : IsUnit (correlation
      (fun a b => ((npCovQ data5 (npWhere data5 pids5 ((1 : ℕ) : ℤ)) a b : ℚ) : ℝ))).det := by
    rw [hcovR]
    exact correlation_isUnit_det 2 _ hdetR hdiagR
  rw [ilcRun, hrange]
  simp only [List.foldlM_cons, List.foldlM_nil]
  rw [ilc_patch_skip A5 data5 pids5 0 _ hany0]
  simp only [bind, Except.bind]
  simp only [ilc_patch, hany1, if_true]
  rw [if_neg (show ¬ (2 = 1) by decide)]
  rw [npLinalgInv_ok _ hunit]
  simp only [Except.mapError, Except.map, pure, Except.pure]
  refine ⟨_, rfl, ?_, ?_, ?_⟩
  · dsimp only
    rw [Function.update_noteq (show (0 : ℕ) ≠ 1 by decide)]
    rfl
  · dsimp only
    rw [Function.update_noteq (show (0 : ℕ) ≠ 1 by decide)]
    rfl
  · funext c
    simp only []
    rw [if_neg (by decide : ¬ (0 : Fin 4) ∈ npWhere data5 pids5 ((1 : ℕ) : ℤ))]
    rfl

end Fgb
